import Mathlib

set_option maxRecDepth 2000
set_option maxHeartbeats 2000000

/-!
Verification of the aggregation–scoring–deduplication core of
`research_paper_finder.py`.

The shallow embedding below translates the pure algorithmic parts of the
source file into Lean definitions:

* `is_relevant_to_cervical_cancer` — lines 31–40 (substring-based filter);
* `calculate_relevance_score` — lines 115–138 (weighted word-boundary
  keyword counting; Python's `re.findall(r'\b…\b', text)` is modelled by a
  left-to-right non-overlapping scan with word-boundary checks, which is
  exactly the regex semantics for keywords that start and end with word
  characters, as all the fixed keywords do);
* `calculate_similarity` — lines 42–44 (`difflib.SequenceMatcher.ratio`,
  i.e. the Ratcliff/Obershelp matching total normalised by the summed
  lengths; for inputs shorter than 200 characters — all titles considered
  here — difflib applies no junk heuristic, so `ratio` is exactly
  2·M/(|a|+|b|) where M is the recursive longest-matching-block total, the
  longest block being chosen with maximal length and, among ties, minimal
  start in `a` then minimal start in `b`; floats are modelled as exact
  rationals and the 0.85 threshold as 17/20);
* `detect_duplicates` — lines 248–310 (two-pass deduplication);
* `search_all_sources` — lines 330–336, the non-network tail of the
  pipeline: deduplicate then stable-sort by score descending (Python's
  `list.sort(key=…, reverse=True)` is a stable descending sort, modelled
  by a stable insertion sort which produces the same list).

Records are modelled by the `Paper` structure: the record dictionaries
built by the source's adapters always contain `title`, a summary text, a
`relevance_score` and a `links` dict, while `duplicate_count` is absent
until `detect_duplicates` sets it, hence an `Option Nat` field.
Recursions that Python expresses with index sets or regex scanning are
given explicit fuel equal to an obvious bound on the number of steps, so
that every definition computes by kernel reduction.
-/

/-- A bibliographic record as built by the source's adapters.  `links` is an
insertion-ordered association list mirroring a Python dict; `duplicate_count`
is `none` until `detect_duplicates` assigns it. -/
structure Paper where
  title : String
  summary : String
  relevance_score : Nat
  links : List (String × String)
  duplicate_count : Option Nat
  deriving DecidableEq, Repr

instance : Inhabited Paper := ⟨⟨"", "", 0, [], none⟩⟩

/-- Python `dict` single-key assignment `m[k] = v`: overwrite in place if the
key exists, else append. -/
def dictInsert (m : List (String × String)) (k v : String) : List (String × String) :=
  if m.any (fun kv => kv.1 == k) then
    m.map (fun kv => if kv.1 = k then (kv.1, v) else kv)
  else m ++ [(k, v)]

/-- Python `dict.update`: fold the additions left to right. -/
def dictUpdate (m adds : List (String × String)) : List (String × String) :=
  adds.foldl (fun acc kv => dictInsert acc kv.1 kv.2) m

/-- Python `str.lower()` on a character list (ASCII case mapping, which is
what all the fixed terms and keywords require). -/
def lowerList (l : List Char) : List Char := l.map Char.toLower

/-- The characters removed by Python `str.strip()`. -/
def isPySpace (c : Char) : Bool :=
  c = ' ' || c = '\t' || c = '\n' || c = '\r' || c = '\x0b' || c = '\x0c'

/-- Python `str.strip()` on a character list. -/
def stripList (l : List Char) : List Char :=
  ((l.dropWhile isPySpace).reverse.dropWhile isPySpace).reverse

/-- `needle` is a leading segment of `hay` (character-wise). -/
def leadsList : List Char → List Char → Bool
  | [], _ => true
  | _ :: _, [] => false
  | a :: as, b :: bs => a = b && leadsList as bs

/-- Python's substring operator `needle in hay` on character lists. -/
def containsSeq (needle : List Char) : List Char → Bool
  | [] => needle.isEmpty
  | c :: rest => leadsList needle (c :: rest) || containsSeq needle rest

/-- The fixed term list of `is_relevant_to_cervical_cancer` (source lines 33–37). -/
def relevant_terms : List String :=
  ["cervical cancer", "cervix", "cervical", "colposcopy", "pap smear",
   "hpv", "human papillomavirus", "cin", "cervical intraepithelial neoplasia",
   "precancerous lesions", "cervical screening", "who colposcopy", "iarc colposcopy"]

/-- Source lines 31–40: true iff some fixed term is a substring of the
lower-cased input. -/
def is_relevant_to_cervical_cancer (text : String) : Bool :=
  relevant_terms.any (fun term => containsSeq term.toList (lowerList text.toList))

/-- Regex word character (`\w` restricted to ASCII, which covers all texts
the fixed keywords are matched against). -/
def isWordChar (c : Char) : Bool := c.isAlphanum || c = '_'

/-- The position before the scan head is a word boundary for a keyword that
starts with a word character: start of text or a non-word character. -/
def boundaryBefore : Option Char → Bool
  | none => true
  | some p => !isWordChar p

/-- The position after a match is a word boundary for a keyword that ends
with a word character: end of text or a non-word character. -/
def boundaryAfter : List Char → Bool
  | [] => true
  | d :: _ => !isWordChar d

/-- Left-to-right non-overlapping scan counting `re.findall(r'\b kw \b')`
matches of the keyword `k :: kws`.  `prev` is the character preceding the
scan head (`none` at the start of the text).  Fuel bounds the number of
steps; each step consumes at least one character, so fuel equal to the text
length is always sufficient. -/
def countOccA (k : Char) (kws : List Char) : Nat → Option Char → List Char → Nat
  | 0, _, _ => 0
  | _ + 1, _, [] => 0
  | fuel + 1, prev, c :: rest =>
      if boundaryBefore prev && leadsList (k :: kws) (c :: rest)
          && boundaryAfter (List.drop kws.length rest) then
        1 + countOccA k kws fuel (some ((kws.getLast?).getD k)) (List.drop kws.length rest)
      else
        countOccA k kws fuel (some c) rest

/-- Number of word-boundary regex matches of `kw` in `text`
(`len(re.findall(r'\b' + re.escape(kw) + r'\b', text))`). -/
def countWordBoundary (kw : String) (text : List Char) : Nat :=
  match kw.toList with
  | [] => 0
  | k :: kws => countOccA k kws text.length none text

/-- The fixed keyword/weight table of `calculate_relevance_score`
(source lines 120–131, in source order). -/
def keywords : List (String × Nat) :=
  [("iarc colposcopy database", 5),
   ("who colposcopy", 5),
   ("iarcimagebankolpo", 5),
   ("colposcopy image", 4),
   ("cervical cancer", 3),
   ("colposcopy", 3),
   ("cervical", 2),
   ("hpv", 2),
   ("screening", 1),
   ("dataset", 1)]

/-- Source lines 115–138: weighted word-boundary keyword frequency over the
lower-cased concatenation `title ++ " " ++ abstract`. -/
def calculate_relevance_score (title abstract : String) : Nat :=
  let text := lowerList (title ++ " " ++ abstract).toList
  keywords.foldl (fun score kw => score + countWordBoundary kw.1 text * kw.2) 0

/-- Length of the longest common leading run of two character lists. -/
def extLen : List Char → List Char → Nat
  | a :: as, b :: bs => if a = b then extLen as bs + 1 else 0
  | _, _ => 0

/-- One candidate step of `SequenceMatcher.find_longest_match`: replace the
current best `(i, j, k)` only on a strictly longer match, which keeps the
earliest `i`, then the earliest `j`, among maximal blocks — difflib's
documented tie-break. -/
def bestStep (a b : List Char) (best : Nat × Nat × Nat) (i j : Nat) : Nat × Nat × Nat :=
  let k := extLen (a.drop i) (b.drop j)
  if best.2.2 < k then (i, j, k) else best

/-- `find_longest_match` over whole lists (no junk, as for short strings):
the longest matching block `(i, j, size)`, ties broken towards the smallest
`i`, then the smallest `j`. -/
def bestMatch (a b : List Char) : Nat × Nat × Nat :=
  (List.range a.length).foldl
    (fun best i => (List.range b.length).foldl (fun bb j => bestStep a b bb i j) best)
    (0, 0, 0)

/-- Total size of all matching blocks (`get_matching_blocks` recursion):
take the longest block, recurse on the text left of it and right of it.
Each recursion level removes at least one character from each side's total,
so fuel `|a| + |b| + 1` always suffices. -/
def matchTotal : Nat → List Char → List Char → Nat
  | 0, _, _ => 0
  | fuel + 1, a, b =>
      let m := bestMatch a b
      if m.2.2 = 0 then 0
      else
        m.2.2 + matchTotal fuel (a.take m.1) (b.take m.2.1)
          + matchTotal fuel (a.drop (m.1 + m.2.2)) (b.drop (m.2.1 + m.2.2))

/-- Source lines 42–44: `SequenceMatcher(None, a.lower(), b.lower()).ratio()`,
modelled exactly over the rationals: `2·M / (|a| + |b|)`, and `1` when both
strings are empty (difflib's `_calculate_ratio` convention). -/
def calculate_similarity (title1 title2 : String) : ℚ :=
  let a := lowerList title1.toList
  let b := lowerList title2.toList
  let total := a.length + b.length
  if total = 0 then 1
  else ((2 * matchTotal (total + 1) a b : ℕ) : ℚ) / (total : ℚ)

/-- The duplicate test `calculate_similarity(a, b) > 0.85` of source line
285, phrased over the integers so that it evaluates by kernel reduction:
for a nonzero length total, `2·M/total > 17/20 ↔ 17·total < 40·M`, and for
two empty strings the ratio is 1 > 0.85.  `isSimilar_iff_ratio` below proves
this equivalent to `calculate_similarity a b > 0.85`. -/
def isSimilar (title1 title2 : String) : Bool :=
  let a := lowerList title1.toList
  let b := lowerList title2.toList
  let total := a.length + b.length
  if total = 0 then true
  else 17 * total < 40 * matchTotal (total + 1) a b

/-- Pass-1 grouping key: `paper['title'].lower().strip()` (source line 254). -/
def titleKey (p : Paper) : List Char := stripList (lowerList p.title.toList)

/-- One step of the Pass-1 dict accumulation (source lines 253–263).  If the
key is present: first merge the new paper's links into the incumbent (the
source mutates the stored dict), then replace the stored entry by the new
paper when it has a strictly higher score — in that case the merged links
are attached to the discarded incumbent, not to the new winner, exactly as
the source does.  If the key is absent: append. -/
def pass1insert (k : List Char) (paper : Paper) :
    List (List Char × Paper) → List (List Char × Paper)
  | [] => [(k, paper)]
  | kp :: rest =>
      if kp.1 = k then
        (if kp.2.relevance_score < paper.relevance_score then
          (kp.1, paper)
        else
          (kp.1, { kp.2 with links := dictUpdate kp.2.links paper.links })) :: rest
      else kp :: pass1insert k paper rest

/-- Pass 1 — exact-title collapse (source lines 251–263):
`list(unique_by_title.values())` in first-seen key order. -/
def pass1 (results : List Paper) : List Paper :=
  (results.foldl (fun acc p => pass1insert (titleKey p) p acc) []).map Prod.snd

/-- Pass-2 inner loop for one anchor (source lines 278–287): split the not
yet processed tail into the records fuzzily matching the anchor (similarity
strictly above 0.85) and the rest, both in scan order. -/
def splitCluster (anchor : Paper) : List Paper → List Paper × List Paper
  | [] => ([], [])
  | p :: ps =>
      let pr := splitCluster anchor ps
      if isSimilar anchor.title p.title then (p :: pr.1, pr.2)
      else (pr.1, p :: pr.2)

/-- Python `max(duplicates, key=score)`: first maximal element. -/
def maxByScore (p : Paper) (ps : List Paper) : Paper :=
  ps.foldl (fun best q => if best.relevance_score < q.relevance_score then q else best) p

/-- Merge a fuzzy cluster `anchor :: ds` with `ds ≠ []` (source lines
289–305): winner is the first member with maximal score, its links are
replaced by the union of all members' links (unless that union is empty),
and `duplicate_count` is set to the cluster size. -/
def mergeCluster (anchor : Paper) (ds : List Paper) : Paper :=
  let best := maxByScore anchor ds
  let all_links := (anchor :: ds).foldl (fun acc d => dictUpdate acc d.links) []
  { best with
    links := if all_links = [] then best.links else all_links,
    duplicate_count := some (anchor :: ds).length }

/-- Pass 2 — fuzzy clustering (source lines 265–308), with fuel: each step
consumes the anchor, so fuel equal to the list length always suffices. -/
def detect_fuzzy_fuel : Nat → List Paper → List Paper
  | 0, _ => []
  | _ + 1, [] => []
  | fuel + 1, p :: ps =>
      let pr := splitCluster p ps
      (if pr.1 = [] then p else mergeCluster p pr.1) :: detect_fuzzy_fuel fuel pr.2

/-- Pass 2 — fuzzy clustering over a record list. -/
def detect_fuzzy (l : List Paper) : List Paper := detect_fuzzy_fuel l.length l

/-- Source lines 248–310: exact-title collapse followed by fuzzy clustering. -/
def detect_duplicates (results : List Paper) : List Paper :=
  detect_fuzzy (pass1 results)

/-- Stable descending insertion by `relevance_score`: a record moves past
exactly the strictly smaller scores, so equal scores keep their original
relative order. -/
def insertDesc (r : Paper) : List Paper → List Paper
  | [] => [r]
  | x :: xs =>
      if x.relevance_score ≤ r.relevance_score then r :: x :: xs
      else x :: insertDesc r xs

/-- Stable sort by `relevance_score` descending, the semantics of Python's
stable `list.sort(key=lambda x: x.get('relevance_score', 0), reverse=True)`
(source line 334). -/
def sortDesc (l : List Paper) : List Paper := l.foldr insertDesc []

/-- Source lines 330–336, the algorithmic tail of `search_all_sources`: the
network adapters that gather `all_results` are external collaborators, so
the core is modelled as a function of the gathered records. -/
def search_all_sources (gathered : List Paper) : List Paper :=
  sortDesc (detect_duplicates gathered)

/-! Concrete records used by the counterexamples and witnesses. -/

/-- First record of the spec's case-only-difference example: score 3, a
`pdf` link. -/
def hpvA : Paper :=
  ⟨"HPV and Cervical Cancer Screening", "", 3, [("pdf", "http://a/p.pdf")], none⟩

/-- Second record of the spec's case-only-difference example: score 5, a
`main` link. -/
def hpvB : Paper :=
  ⟨"hpv and cervical cancer screening", "", 5, [("main", "http://b/")], none⟩

/-- Anchor record `A`: its title extends the common stem `cdefgh` with
`xx`; similarity to `B` is 12/14 > 0.85 and to `C` is 12/16 ≤ 0.85. -/
def recA : Paper :=
  ⟨"cdefghxx", "", 1, [("pdf", "http://a/")], none⟩

/-- Record `B`: the bare 6-character stem, wins its cluster on score. -/
def recB : Paper :=
  ⟨"cdefgh", "", 5, [("main", "http://b/")], none⟩

/-- Record `C`: the stem extended with `yy`; similar to `B` (12/14) but not
to `A` (12/16 ≤ 0.85). -/
def recC : Paper :=
  ⟨"cdefghyy", "", 0, [], none⟩

/-- A record with an empty title, used for the title-less merging example. -/
def emptyT1 : Paper := ⟨"", "x", 2, [("a", "u1")], none⟩

/-- A second record with an empty title. -/
def emptyT2 : Paper := ⟨"", "y", 1, [("b", "u2")], none⟩

/-- `r` agrees with `q` on every field the deduplication passes leave
untouched when they rewrite a stored record's links: title, score and
duplicate count. -/
def sameCore (r q : Paper) : Prop :=
  r.title = q.title ∧ r.relevance_score = q.relevance_score
    ∧ r.duplicate_count = q.duplicate_count

/-! ### Substring characterisation of the relevance classifier -/

theorem leadsList_iff (n : List Char) :
    ∀ h : List Char, leadsList n h = true ↔ ∃ q, h = n ++ q := by
  induction n with
  | nil => intro h; simp [leadsList]
  | cons a as ih =>
      intro h
      cases h with
      | nil => simp [leadsList]
      | cons b bs =>
          simp only [leadsList, Bool.and_eq_true, decide_eq_true_eq, ih bs]
          constructor
          · rintro ⟨rfl, q, rfl⟩; exact ⟨q, rfl⟩
          · rintro ⟨q, hq⟩
            injection hq with h1 h2
            exact ⟨h1.symm, q, h2⟩

theorem containsSeq_iff (n : List Char) :
    ∀ h : List Char, containsSeq n h = true ↔ ∃ p q, h = p ++ n ++ q := by
  intro h
  induction h with
  | nil =>
      simp only [containsSeq, List.isEmpty_iff]
      constructor
      · rintro rfl; exact ⟨[], [], rfl⟩
      · rintro ⟨p, q, hpq⟩
        rcases List.append_eq_nil.mp hpq.symm with ⟨h1, h2⟩
        rcases List.append_eq_nil.mp h1 with ⟨-, h3⟩
        exact h3
  | cons c rest ih =>
      simp only [containsSeq, Bool.or_eq_true, leadsList_iff, ih]
      constructor
      · rintro (⟨q, hq⟩ | ⟨p, q, hq⟩)
        · exact ⟨[], q, by simp [hq]⟩
        · exact ⟨c :: p, q, by simp [hq]⟩
      · rintro ⟨p, q, hq⟩
        cases p with
        | nil => exact Or.inl ⟨q, by simpa using hq⟩
        | cons c' p' =>
            injection hq with h1 h2
            exact Or.inr ⟨p', q, h2⟩

/-- C7: for every input string the relevance classifier returns `true` iff
some term of the fixed term list occurs as a substring of the lower-cased
input, and the empty string yields `false`. -/
theorem is_relevant_iff_substring :
    (∀ text : String, is_relevant_to_cervical_cancer text = true ↔
      ∃ term ∈ relevant_terms, ∃ p q, lowerList text.toList = p ++ term.toList ++ q)
    ∧ is_relevant_to_cervical_cancer "" = false := by
  constructor
  · intro text
    simp only [is_relevant_to_cervical_cancer, List.any_eq_true, containsSeq_iff]
  · decide

/-! ### The relevance scorer as a weighted sum of word-boundary counts -/

theorem foldl_score_sum (t : List Char) :
    ∀ (l : List (String × Nat)) (n : Nat),
      l.foldl (fun score kw => score + countWordBoundary kw.1 t * kw.2) n
        = n + (l.map (fun kw => kw.2 * countWordBoundary kw.1 t)).sum := by
  intro l
  induction l with
  | nil => intro n; simp
  | cons kw rest ih => intro n; simp [ih]; ring

/-- C6: the relevance score is the sum over the fixed keyword table of
weight × word-boundary match count in the lower-cased concatenation of
title, one space, and abstract; the table carries the listed weights, and a
keyword never matches inside a longer token (`cervical` occurs as a
substring of `transcervicalization` yet scores nothing). -/
theorem relevance_score_weighted_sum :
    (∀ title abstract : String,
      calculate_relevance_score title abstract
        = (keywords.map
            (fun kw => kw.2 *
              countWordBoundary kw.1 (lowerList (title ++ " " ++ abstract).toList))).sum)
    ∧ ("iarc colposcopy database", 5) ∈ keywords
    ∧ ("colposcopy image", 4) ∈ keywords
    ∧ ("cervical cancer", 3) ∈ keywords
    ∧ ("colposcopy", 3) ∈ keywords
    ∧ ("cervical", 2) ∈ keywords
    ∧ ("hpv", 2) ∈ keywords
    ∧ ("screening", 1) ∈ keywords
    ∧ ("dataset", 1) ∈ keywords
    ∧ calculate_relevance_score "cervical cancer screening" "" = 6
    ∧ calculate_relevance_score "transcervicalization" "" = 0 := by
  refine ⟨?_, by decide, by decide, by decide, by decide, by decide,
    by decide, by decide, by decide, by decide, by decide⟩
  intro title abstract
  unfold calculate_relevance_score
  simpa using foldl_score_sum (lowerList (title ++ " " ++ abstract).toList) keywords 0

/-- C10: a record can pass the relevance filter yet receive relevance score
0 — the classifier term `pap smear` triggers the filter while no scorer
keyword matches. -/
theorem relevant_but_zero_score :
    is_relevant_to_cervical_cancer "Analysis of pap smear slides" = true
    ∧ calculate_relevance_score "Analysis of pap smear slides" "" = 0 := by
  constructor
  · decide
  · decide

/-! ### Pass 1 drops links when the later record wins on score -/

/-- C1 (code bug witness): on the spec's own case-only-difference example —
scores 3 then 5, a `pdf` link on the first record and a `main` link on the
second — the resolver keeps the second record with only its own `main`
link: the `pdf` key present in the collapsed group is dropped, because
Pass 1 merges the links into the incumbent and then replaces the incumbent
by the higher-scoring record. -/
theorem exact_collapse_drops_links :
    detect_duplicates [hpvA, hpvB] = [hpvB]
    ∧ hpvA.links.map Prod.fst = ["pdf"]
    ∧ (detect_duplicates [hpvA, hpvB]).map (fun r => r.links.map Prod.fst) = [["main"]] := by
  refine ⟨by decide, by decide, by decide⟩

/-- C2 (counterexample): on the case-only-difference example the single
output record carries no `duplicate_count` at all (`none`), not the
positive integer 2 the claim requires. -/
theorem case_only_duplicate_count_missing :
    (detect_duplicates [hpvA, hpvB]).map (fun r => r.duplicate_count) = [none] := by
  decide

/-- C3 (counterexample): the resolver is not idempotent.  With titles
`cdefghxx` (score 1), `cdefgh` (score 5) and `cdefghyy` (score 0), the
first run clusters the first two records (winner: the bare stem, which has
the higher score) and leaves the third alone, but the winner is similar to
the third record (12/14 > 0.85), so a second run over the first run's
output merges again: 3 → 2 → 1 records. -/
theorem resolver_not_idempotent :
    (detect_duplicates [recA, recB, recC]).length = 2
    ∧ (detect_duplicates (detect_duplicates [recA, recB, recC])).length = 1 := by
  refine ⟨by decide, by decide⟩

/-! ### The integer duplicate test agrees with the rational ratio test -/

theorem isSimilar_iff_ratio (t1 t2 : String) :
    isSimilar t1 t2 = true ↔ calculate_similarity t1 t2 > 0.85 := by
  unfold isSimilar calculate_similarity
  set a := lowerList t1.toList with ha
  set b := lowerList t2.toList with hb
  by_cases h : a.length + b.length = 0
  · simp only [h, if_pos rfl, reduceIte]
    norm_num
  · set M := matchTotal (a.length + b.length + 1) a b with hM
    set T := a.length + b.length with hT
    have hTpos : (0 : ℚ) < (T : ℚ) := by
      exact_mod_cast Nat.pos_of_ne_zero h
    simp only [if_neg h, gt_iff_lt, decide_eq_true_eq]
    rw [lt_div_iff₀ hTpos, show (0.85 : ℚ) = 17 / 20 by norm_num,
      div_mul_eq_mul_div, div_lt_iff₀ (by norm_num : (0 : ℚ) < 20)]
    constructor
    · intro h'
      have hc : ((17 * T : ℕ) : ℚ) < ((40 * M : ℕ) : ℚ) := by exact_mod_cast h'
      push_cast at hc ⊢
      linarith
    · intro h'
      have hc : ((17 * T : ℕ) : ℚ) < ((40 * M : ℕ) : ℚ) := by
        push_cast
        push_cast at h'
        linarith
      exact_mod_cast hc

/-! ### Similarity is reflexively 1 -/

theorem extLen_self : ∀ l : List Char, extLen l l = l.length := by
  intro l
  induction l with
  | nil => rfl
  | cons c cs ih => simp [extLen, ih]

theorem extLen_le_length_left : ∀ xs ys : List Char, extLen xs ys ≤ xs.length := by
  intro xs
  induction xs with
  | nil => intro ys; cases ys <;> simp [extLen]
  | cons x xs ih =>
      intro ys
      cases ys with
      | nil => simp [extLen]
      | cons y ys =>
          simp only [extLen, List.length_cons]
          split
          · exact Nat.succ_le_succ (ih ys)
          · exact Nat.zero_le _

theorem foldl_bestStep_fixed (a b : List Char) (i : Nat) (bb : Nat × Nat × Nat)
    (h : ∀ j, extLen (a.drop i) (b.drop j) ≤ bb.2.2) :
    ∀ L : List Nat, L.foldl (fun x j => bestStep a b x i j) bb = bb := by
  intro L
  induction L with
  | nil => rfl
  | cons j L ih =>
      have hstep : bestStep a b bb i j = bb := by
        unfold bestStep
        rw [if_neg (Nat.not_lt.mpr (h j))]
      rw [List.foldl_cons, hstep, ih]

theorem foldl_bestMatch_fixed (a b : List Char) (bb : Nat × Nat × Nat) (Li : List Nat)
    (h : ∀ i j, extLen (a.drop i) (b.drop j) ≤ bb.2.2) :
    ∀ L : List Nat,
      L.foldl (fun best i => Li.foldl (fun x j => bestStep a b x i j) best) bb = bb := by
  intro L
  induction L with
  | nil => rfl
  | cons i L ih =>
      rw [List.foldl_cons, foldl_bestStep_fixed a b i bb (h i), ih]

theorem bestMatch_self (l : List Char) (hne : l ≠ []) : bestMatch l l = (0, 0, l.length) := by
  obtain ⟨c, cs, rfl⟩ := List.exists_cons_of_ne_nil hne
  have hext : ∀ i j, extLen ((c :: cs).drop i) ((c :: cs).drop j) ≤ cs.length + 1 := by
    intro i j
    exact le_trans (extLen_le_length_left _ _) (by simp)
  have hfirst : bestStep (c :: cs) (c :: cs) (0, 0, 0) 0 0 = (0, 0, cs.length + 1) := by
    unfold bestStep
    simp [extLen_self]
  have hinner : List.foldl (fun bb j => bestStep (c :: cs) (c :: cs) bb 0 j) (0, 0, 0)
      (0 :: List.map Nat.succ (List.range cs.length)) = (0, 0, cs.length + 1) := by
    rw [List.foldl_cons, hfirst]
    exact foldl_bestStep_fixed _ _ _ _ (fun j => by simpa using hext 0 j) _
  have hrange : List.range (c :: cs).length = 0 :: List.map Nat.succ (List.range cs.length) := by
    rw [List.length_cons, List.range_succ_eq_map]
  unfold bestMatch
  rw [hrange, List.foldl_cons]
  simp only [hinner]
  exact foldl_bestMatch_fixed _ _ _ _ (fun i j => by simpa using hext i j) _

theorem matchTotal_nil_nil : ∀ fuel : Nat, matchTotal fuel [] [] = 0 := by
  intro fuel
  cases fuel with
  | zero => rfl
  | succ f => rfl

theorem matchTotal_self (l : List Char) (hne : l ≠ []) (fuel : Nat) :
    matchTotal (fuel + 1) l l = l.length := by
  have hlen : l.length ≠ 0 := by simpa using (List.length_pos.mpr hne).ne'
  simp [matchTotal, bestMatch_self l hne, hlen, List.drop_length, matchTotal_nil_nil]

theorem calculate_similarity_self (s : String) : calculate_similarity s s = 1 := by
  show (if (lowerList s.toList).length + (lowerList s.toList).length = 0 then (1 : ℚ)
    else ((2 * matchTotal ((lowerList s.toList).length + (lowerList s.toList).length + 1)
        (lowerList s.toList) (lowerList s.toList) : ℕ) : ℚ)
      / (((lowerList s.toList).length + (lowerList s.toList).length : ℕ) : ℚ)) = 1
  set L := lowerList s.toList with hL
  by_cases hc : L = []
  · rw [hc]
    norm_num
  · have hlen : L.length ≠ 0 := by
      simpa using (List.length_pos.mpr hc).ne'
    rw [if_neg (by omega)]
    rw [matchTotal_self L hc]
    have hq : ((L.length + L.length : ℕ) : ℚ) ≠ 0 := by
      exact_mod_cast (by omega : L.length + L.length ≠ 0)
    rw [div_eq_one_iff_eq hq]
    push_cast
    ring

/-- C8: similarity is reflexively 1 for every string, including the empty
string, and two records whose titles are both empty are merged into a
single output record. -/
theorem similarity_self_is_one :
    (∀ s : String, calculate_similarity s s = 1)
    ∧ calculate_similarity "" "" = 1
    ∧ (detect_duplicates [emptyT1, emptyT2]).length = 1 := by
  exact ⟨calculate_similarity_self, calculate_similarity_self "", by decide⟩

/-! ### Structure of Pass 1 -/

theorem sameCore_refl (r : Paper) : sameCore r r := ⟨rfl, rfl, rfl⟩

theorem sameCore_trans {r q t : Paper} (h1 : sameCore r q) (h2 : sameCore q t) : sameCore r t :=
  ⟨h1.1.trans h2.1, h1.2.1.trans h2.2.1, h1.2.2.trans h2.2.2⟩

theorem pass1insert_values (k : List Char) (paper : Paper) :
    ∀ acc : List (List Char × Paper), ∀ kp ∈ pass1insert k paper acc,
      (∃ q ∈ acc, sameCore kp.2 q.2) ∨ sameCore kp.2 paper := by
  intro acc
  induction acc with
  | nil =>
      intro kp hkp
      simp only [pass1insert, List.mem_singleton] at hkp
      exact Or.inr (hkp ▸ sameCore_refl paper)
  | cons kp0 rest ih =>
      intro kp hkp
      by_cases h0 : kp0.1 = k
      · rw [pass1insert, if_pos h0] at hkp
        rcases List.mem_cons.mp hkp with h | h
        · by_cases hs : kp0.2.relevance_score < paper.relevance_score
          · rw [if_pos hs] at h
            exact Or.inr (h ▸ sameCore_refl paper)
          · rw [if_neg hs] at h
            refine Or.inl ⟨kp0, List.mem_cons_self _ _, ?_⟩
            rw [h]
            exact ⟨rfl, rfl, rfl⟩
        · exact Or.inl ⟨kp, List.mem_cons_of_mem _ h, sameCore_refl _⟩
      · rw [pass1insert, if_neg h0] at hkp
        rcases List.mem_cons.mp hkp with h | h
        · exact Or.inl ⟨kp0, List.mem_cons_self _ _, h ▸ sameCore_refl _⟩
        · rcases ih kp h with ⟨q, hq, hcore⟩ | hcore
          · exact Or.inl ⟨q, List.mem_cons_of_mem _ hq, hcore⟩
          · exact Or.inr hcore

theorem pass1_foldl_values (l : List Paper) :
    ∀ acc : List (List Char × Paper),
      ∀ kp ∈ l.foldl (fun acc p => pass1insert (titleKey p) p acc) acc,
        (∃ q ∈ acc, sameCore kp.2 q.2) ∨ ∃ p ∈ l, sameCore kp.2 p := by
  induction l with
  | nil => intro acc kp hkp; exact Or.inl ⟨kp, hkp, sameCore_refl _⟩
  | cons x l ih =>
      intro acc kp hkp
      rw [List.foldl_cons] at hkp
      rcases ih _ kp hkp with ⟨q, hq, hcore⟩ | ⟨p, hp, hcore⟩
      · rcases pass1insert_values (titleKey x) x acc q hq with ⟨q', hq', hcore'⟩ | hcore'
        · exact Or.inl ⟨q', hq', sameCore_trans hcore hcore'⟩
        · exact Or.inr ⟨x, List.mem_cons_self _ _, sameCore_trans hcore hcore'⟩
      · exact Or.inr ⟨p, List.mem_cons_of_mem _ hp, hcore⟩

theorem pass1_mem (l : List Paper) : ∀ r ∈ pass1 l, ∃ p ∈ l, sameCore r p := by
  intro r hr
  unfold pass1 at hr
  rcases List.mem_map.mp hr with ⟨kp, hkp, rfl⟩
  rcases pass1_foldl_values l [] kp hkp with ⟨q, hq, -⟩ | h
  · exact absurd hq (List.not_mem_nil q)
  · exact h

theorem pass1insert_length (k : List Char) (paper : Paper) :
    ∀ acc : List (List Char × Paper), (pass1insert k paper acc).length ≤ acc.length + 1 := by
  intro acc
  induction acc with
  | nil => simp [pass1insert]
  | cons kp0 rest ih =>
      by_cases h0 : kp0.1 = k
      · rw [pass1insert, if_pos h0]
        simp
      · rw [pass1insert, if_neg h0]
        simpa using ih

theorem pass1_foldl_length (l : List Paper) :
    ∀ acc : List (List Char × Paper),
      (l.foldl (fun acc p => pass1insert (titleKey p) p acc) acc).length
        ≤ acc.length + l.length := by
  induction l with
  | nil => intro acc; simp
  | cons x l ih =>
      intro acc
      rw [List.foldl_cons]
      calc (l.foldl (fun acc p => pass1insert (titleKey p) p acc)
              (pass1insert (titleKey x) x acc)).length
          ≤ (pass1insert (titleKey x) x acc).length + l.length := ih _
        _ ≤ (acc.length + 1) + l.length :=
            Nat.add_le_add_right (pass1insert_length _ _ acc) _
        _ = acc.length + (x :: l).length := by simp [Nat.add_comm, Nat.add_assoc, Nat.add_left_comm]

theorem pass1_length (l : List Paper) : (pass1 l).length ≤ l.length := by
  unfold pass1
  simpa using pass1_foldl_length l []

/-! ### Pass-1 keys are the normalised titles, pairwise distinct -/

theorem titleKey_congr {r q : Paper} (h : r.title = q.title) : titleKey r = titleKey q := by
  unfold titleKey
  rw [h]

theorem pass1insert_keys_inv (k : List Char) (paper : Paper) (hk : k = titleKey paper) :
    ∀ acc : List (List Char × Paper), (∀ kp ∈ acc, kp.1 = titleKey kp.2) →
      ∀ kp ∈ pass1insert k paper acc, kp.1 = titleKey kp.2 := by
  intro acc
  induction acc with
  | nil =>
      intro _ kp hkp
      simp only [pass1insert, List.mem_singleton] at hkp
      rw [hkp]
      exact hk
  | cons kp0 rest ih =>
      intro hinv kp hkp
      have hinv0 := hinv kp0 (List.mem_cons_self _ _)
      have hinvr : ∀ kp ∈ rest, kp.1 = titleKey kp.2 :=
        fun kp h => hinv kp (List.mem_cons_of_mem _ h)
      by_cases h0 : kp0.1 = k
      · rw [pass1insert, if_pos h0] at hkp
        rcases List.mem_cons.mp hkp with h | h
        · by_cases hs : kp0.2.relevance_score < paper.relevance_score
          · rw [if_pos hs] at h
            rw [h]
            exact h0.trans hk
          · rw [if_neg hs] at h
            rw [h]
            simpa [titleKey] using hinv0
        · exact hinvr kp h
      · rw [pass1insert, if_neg h0] at hkp
        rcases List.mem_cons.mp hkp with h | h
        · rw [h]; exact hinv0
        · exact ih hinvr kp h

theorem pass1insert_fst_of_mem (k : List Char) (paper : Paper) :
    ∀ acc : List (List Char × Paper), k ∈ acc.map Prod.fst →
      (pass1insert k paper acc).map Prod.fst = acc.map Prod.fst := by
  intro acc
  induction acc with
  | nil => intro h; simp at h
  | cons kp0 rest ih =>
      intro hmem
      by_cases h0 : kp0.1 = k
      · rw [pass1insert, if_pos h0]
        by_cases hs : kp0.2.relevance_score < paper.relevance_score
        · simp [hs, h0]
        · simp [hs, h0]
      · rw [pass1insert, if_neg h0]
        have hrest : k ∈ rest.map Prod.fst := by
          rcases (by simpa using hmem : k = kp0.1 ∨ ∃ x, (k, x) ∈ rest) with h | ⟨x, hx⟩
          · exact absurd h.symm h0
          · exact List.mem_map.mpr ⟨(k, x), hx, rfl⟩
        simp [ih hrest]

theorem pass1insert_fst_of_not_mem (k : List Char) (paper : Paper) :
    ∀ acc : List (List Char × Paper), k ∉ acc.map Prod.fst →
      (pass1insert k paper acc).map Prod.fst = acc.map Prod.fst ++ [k] := by
  intro acc
  induction acc with
  | nil => intro _; simp [pass1insert]
  | cons kp0 rest ih =>
      intro hmem
      have h0 : kp0.1 ≠ k := by
        intro h
        exact hmem (by simp [h])
      have hrest : k ∉ rest.map Prod.fst := by
        intro h
        exact hmem (by simp [h])
      rw [pass1insert, if_neg h0]
      simp [ih hrest]

theorem pass1_foldl_fst_nodup (l : List Paper) :
    ∀ acc : List (List Char × Paper), (acc.map Prod.fst).Nodup →
      ((l.foldl (fun acc p => pass1insert (titleKey p) p acc) acc).map Prod.fst).Nodup := by
  induction l with
  | nil => intro acc h; exact h
  | cons x l ih =>
      intro acc h
      rw [List.foldl_cons]
      apply ih
      by_cases hmem : titleKey x ∈ acc.map Prod.fst
      · rw [pass1insert_fst_of_mem _ _ _ hmem]
        exact h
      · rw [pass1insert_fst_of_not_mem _ _ _ hmem]
        refine List.nodup_append.mpr ⟨h, List.nodup_singleton _, ?_⟩
        intro y hy hy'
        rw [List.mem_singleton] at hy'
        subst hy'
        exact hmem hy

theorem pass1_keys_pairwise (l : List Paper) :
    (pass1 l).Pairwise (fun p q => titleKey p ≠ titleKey q) := by
  have hinv : ∀ kp ∈ l.foldl (fun acc p => pass1insert (titleKey p) p acc)
      ([] : List (List Char × Paper)), kp.1 = titleKey kp.2 := by
    have : ∀ (m : List Paper) (acc : List (List Char × Paper)),
        (∀ kp ∈ acc, kp.1 = titleKey kp.2) →
        ∀ kp ∈ m.foldl (fun acc p => pass1insert (titleKey p) p acc) acc,
          kp.1 = titleKey kp.2 := by
      intro m
      induction m with
      | nil => intro acc h; exact h
      | cons x m ih =>
          intro acc h
          rw [List.foldl_cons]
          exact ih _ (pass1insert_keys_inv _ x rfl acc h)
    exact this l [] (by simp)
  have hnodup := pass1_foldl_fst_nodup l [] (by simp)
  set F := l.foldl (fun acc p => pass1insert (titleKey p) p acc) ([] : List (List Char × Paper))
    with hF
  have hmapeq : F.map Prod.fst = (F.map Prod.snd).map titleKey := by
    rw [List.map_map]
    exact List.map_congr_left (fun kp hkp => hinv kp hkp)
  rw [hmapeq] at hnodup
  unfold pass1
  rw [← hF]
  exact List.pairwise_map.mp hnodup

/-! ### Pass 1 is the identity on key-distinct record lists -/

theorem pass1insert_append (k : List Char) (paper : Paper) :
    ∀ acc : List (List Char × Paper), (∀ kp ∈ acc, kp.1 ≠ k) →
      pass1insert k paper acc = acc ++ [(k, paper)] := by
  intro acc
  induction acc with
  | nil => intro _; rfl
  | cons kp0 rest ih =>
      intro h
      have h0 : kp0.1 ≠ k := h kp0 (List.mem_cons_self _ _)
      rw [pass1insert, if_neg h0, ih (fun kp hkp => h kp (List.mem_cons_of_mem _ hkp))]
      simp

theorem pass1_foldl_id (l : List Paper) :
    ∀ acc : List (List Char × Paper),
      (∀ kp ∈ acc, ∀ p ∈ l, kp.1 ≠ titleKey p) →
      l.Pairwise (fun p q => titleKey p ≠ titleKey q) →
      l.foldl (fun acc p => pass1insert (titleKey p) p acc) acc
        = acc ++ l.map (fun p => (titleKey p, p)) := by
  induction l with
  | nil => intro acc _ _; simp
  | cons x l ih =>
      intro acc hacc hpw
      rw [List.foldl_cons,
        pass1insert_append _ x acc (fun kp hkp => hacc kp hkp x (List.mem_cons_self _ _))]
      rw [ih (acc ++ [(titleKey x, x)]) ?_ (List.Pairwise.of_cons hpw)]
      · simp
      · intro kp hkp p hp
        rcases List.mem_append.mp hkp with h | h
        · exact hacc kp h p (List.mem_cons_of_mem _ hp)
        · rw [List.mem_singleton] at h
          rw [h]
          exact (List.pairwise_cons.mp hpw).1 p hp

theorem pass1_id (l : List Paper)
    (h : l.Pairwise (fun p q => titleKey p ≠ titleKey q)) : pass1 l = l := by
  unfold pass1
  rw [pass1_foldl_id l [] (by simp) h]
  simp only [List.nil_append, List.map_map]
  have hfun : List.map (Prod.snd ∘ fun p => (titleKey p, p)) l = List.map (fun p => p) l :=
    List.map_congr_left (fun p _ => rfl)
  rw [hfun]
  exact List.map_id' l

/-! ### Structure of the fuzzy pass -/

theorem splitCluster_eq (anchor p : Paper) (ps : List Paper) :
    splitCluster anchor (p :: ps)
      = if isSimilar anchor.title p.title
        then (p :: (splitCluster anchor ps).1, (splitCluster anchor ps).2)
        else ((splitCluster anchor ps).1, p :: (splitCluster anchor ps).2) := rfl

theorem splitCluster_fst_length (anchor : Paper) :
    ∀ l : List Paper, ((splitCluster anchor l).1).length ≤ l.length := by
  intro l
  induction l with
  | nil => simp [splitCluster]
  | cons p ps ih =>
      rw [splitCluster_eq]
      by_cases h : isSimilar anchor.title p.title
      · rw [if_pos h]
        simpa using ih
      · rw [if_neg h]
        simp only [List.length_cons]
        exact Nat.le_succ_of_le ih

theorem splitCluster_snd_length (anchor : Paper) :
    ∀ l : List Paper, ((splitCluster anchor l).2).length ≤ l.length := by
  intro l
  induction l with
  | nil => simp [splitCluster]
  | cons p ps ih =>
      rw [splitCluster_eq]
      by_cases h : isSimilar anchor.title p.title
      · rw [if_pos h]
        simp only [List.length_cons]
        exact Nat.le_succ_of_le ih
      · rw [if_neg h]
        simpa using ih

theorem splitCluster_fst_subset (anchor : Paper) :
    ∀ l : List Paper, ∀ x ∈ (splitCluster anchor l).1, x ∈ l := by
  intro l
  induction l with
  | nil => simp [splitCluster]
  | cons p ps ih =>
      intro x hx
      rw [splitCluster_eq] at hx
      by_cases h : isSimilar anchor.title p.title
      · rw [if_pos h] at hx
        rcases List.mem_cons.mp hx with h' | h'
        · exact h' ▸ List.mem_cons_self _ _
        · exact List.mem_cons_of_mem _ (ih x h')
      · rw [if_neg h] at hx
        exact List.mem_cons_of_mem _ (ih x hx)

theorem splitCluster_snd_subset (anchor : Paper) :
    ∀ l : List Paper, ∀ x ∈ (splitCluster anchor l).2, x ∈ l := by
  intro l
  induction l with
  | nil => simp [splitCluster]
  | cons p ps ih =>
      intro x hx
      rw [splitCluster_eq] at hx
      by_cases h : isSimilar anchor.title p.title
      · rw [if_pos h] at hx
        exact List.mem_cons_of_mem _ (ih x hx)
      · rw [if_neg h] at hx
        rcases List.mem_cons.mp hx with h' | h'
        · exact h' ▸ List.mem_cons_self _ _
        · exact List.mem_cons_of_mem _ (ih x h')

theorem maxByScore_mem : ∀ (ds : List Paper) (p : Paper),
    maxByScore p ds = p ∨ maxByScore p ds ∈ ds := by
  intro ds
  induction ds with
  | nil => intro p; exact Or.inl rfl
  | cons q ds ih =>
      intro p
      have hstep : maxByScore p (q :: ds)
          = maxByScore (if p.relevance_score < q.relevance_score then q else p) ds := rfl
      rw [hstep]
      rcases ih (if p.relevance_score < q.relevance_score then q else p) with h | h
      · rw [h]
        by_cases hs : p.relevance_score < q.relevance_score
        · exact Or.inr (by rw [if_pos hs]; exact List.mem_cons_self _ _)
        · exact Or.inl (by rw [if_neg hs])
      · exact Or.inr (List.mem_cons_of_mem _ h)

theorem mergeCluster_title (p : Paper) (ds : List Paper) :
    (mergeCluster p ds).title = (maxByScore p ds).title := rfl

theorem mergeCluster_score (p : Paper) (ds : List Paper) :
    (mergeCluster p ds).relevance_score = (maxByScore p ds).relevance_score := rfl

theorem mergeCluster_dc (p : Paper) (ds : List Paper) :
    (mergeCluster p ds).duplicate_count = some (ds.length + 1) := rfl

theorem detect_fuzzy_fuel_cons (fuel : Nat) (p : Paper) (ps : List Paper) :
    detect_fuzzy_fuel (fuel + 1) (p :: ps)
      = (if (splitCluster p ps).1 = [] then p else mergeCluster p (splitCluster p ps).1)
          :: detect_fuzzy_fuel fuel (splitCluster p ps).2 := rfl

theorem detect_fuzzy_fuel_length :
    ∀ (fuel : Nat) (l : List Paper), (detect_fuzzy_fuel fuel l).length ≤ l.length := by
  intro fuel
  induction fuel with
  | zero => intro l; simp [detect_fuzzy_fuel]
  | succ fuel ih =>
      intro l
      cases l with
      | nil => simp [detect_fuzzy_fuel]
      | cons p ps =>
          rw [detect_fuzzy_fuel_cons]
          simp only [List.length_cons]
          exact Nat.succ_le_succ (le_trans (ih _) (splitCluster_snd_length p ps))

theorem detect_fuzzy_fuel_mem :
    ∀ (fuel : Nat) (l : List Paper), ∀ r ∈ detect_fuzzy_fuel fuel l,
      r ∈ l ∨ ∃ p ∈ l, r.title = p.title ∧ r.relevance_score = p.relevance_score
        ∧ ∃ k, r.duplicate_count = some k ∧ 2 ≤ k ∧ k ≤ l.length := by
  intro fuel
  induction fuel with
  | zero => intro l r hr; simp [detect_fuzzy_fuel] at hr
  | succ fuel ih =>
      intro l r hr
      cases l with
      | nil => simp [detect_fuzzy_fuel] at hr
      | cons p ps =>
          rw [detect_fuzzy_fuel_cons] at hr
          rcases List.mem_cons.mp hr with h | h
          · by_cases hds : (splitCluster p ps).1 = []
            · rw [if_pos hds] at h
              exact Or.inl (h ▸ List.mem_cons_self _ _)
            · rw [if_neg hds] at h
              refine Or.inr ?_
              have hbest := maxByScore_mem (splitCluster p ps).1 p
              have hbest_mem : maxByScore p (splitCluster p ps).1 ∈ p :: ps := by
                rcases hbest with h' | h'
                · rw [h']; exact List.mem_cons_self _ _
                · exact List.mem_cons_of_mem _ (splitCluster_fst_subset p ps _ h')
              refine ⟨maxByScore p (splitCluster p ps).1, hbest_mem, ?_, ?_, ?_⟩
              · rw [h]; exact mergeCluster_title _ _
              · rw [h]; exact mergeCluster_score _ _
              · refine ⟨(splitCluster p ps).1.length + 1, ?_, ?_, ?_⟩
                · rw [h]; exact mergeCluster_dc _ _
                · have : (splitCluster p ps).1.length ≠ 0 := by
                    simpa using (List.length_pos.mpr hds).ne'
                  omega
                · have := splitCluster_fst_length p ps
                  simp only [List.length_cons]
                  omega
          · rcases ih _ r h with h' | ⟨p', hp', ht, hs, k, hdc, hk2, hkle⟩
            · exact Or.inl (List.mem_cons_of_mem _ (splitCluster_snd_subset p ps r h'))
            · refine Or.inr ⟨p', List.mem_cons_of_mem _ (splitCluster_snd_subset p ps p' hp'),
                ht, hs, k, hdc, hk2, ?_⟩
              have := splitCluster_snd_length p ps
              simp only [List.length_cons]
              omega

/-- C9: the resolver never invents records — its output is at most as long
as its input, and every output record carries the title and relevance score
of some input record. -/
theorem resolver_output_from_input (l : List Paper) :
    (detect_duplicates l).length ≤ l.length
    ∧ ∀ r ∈ detect_duplicates l, ∃ p ∈ l,
        r.title = p.title ∧ r.relevance_score = p.relevance_score := by
  constructor
  · calc (detect_duplicates l).length
        = (detect_fuzzy_fuel (pass1 l).length (pass1 l)).length := rfl
      _ ≤ (pass1 l).length := detect_fuzzy_fuel_length _ _
      _ ≤ l.length := pass1_length l
  · intro r hr
    have hr' : r ∈ detect_fuzzy_fuel (pass1 l).length (pass1 l) := hr
    rcases detect_fuzzy_fuel_mem _ _ r hr' with h | ⟨p', hp', ht, hs, -⟩
    · rcases pass1_mem l r h with ⟨p, hp, hcore⟩
      exact ⟨p, hp, hcore.1, hcore.2.1⟩
    · rcases pass1_mem l p' hp' with ⟨p, hp, hcore⟩
      exact ⟨p, hp, ht.trans hcore.1, hs.trans hcore.2.1⟩

theorem resolver_output_from_input_witness :
    (detect_duplicates [recC]).length ≤ ([recC] : List Paper).length
    ∧ ∃ p ∈ ([recC] : List Paper),
        recC.title = p.title ∧ recC.relevance_score = p.relevance_score :=
  ⟨(resolver_output_from_input [recC]).1,
    (resolver_output_from_input [recC]).2 recC (by decide)⟩

/-- C2 (amended): every resolver output record either inherits its
`duplicate_count` unchanged from some input record (so it is absent for
fresh inputs — never set to 1 — and Pass-1 exact collapses contribute
nothing), or was produced by a Pass-2 merge and carries
`duplicate_count = some k` for a cluster size `k ≥ 2` that counts Pass-1
representatives. -/
theorem duplicate_count_characterisation (l : List Paper) (r : Paper)
    (hr : r ∈ detect_duplicates l) :
    (∃ p ∈ l, r.duplicate_count = p.duplicate_count)
    ∨ ∃ k, r.duplicate_count = some k ∧ 2 ≤ k := by
  have hr' : r ∈ detect_fuzzy_fuel (pass1 l).length (pass1 l) := hr
  rcases detect_fuzzy_fuel_mem _ _ r hr' with h | ⟨p', hp', -, -, k, hdc, hk2, -⟩
  · rcases pass1_mem l r h with ⟨p, hp, hcore⟩
    exact Or.inl ⟨p, hp, hcore.2.2⟩
  · exact Or.inr ⟨k, hdc, hk2⟩

theorem duplicate_count_characterisation_witness :
    (∃ p ∈ ([hpvA, hpvB] : List Paper), hpvB.duplicate_count = p.duplicate_count)
    ∨ ∃ k, hpvB.duplicate_count = some k ∧ 2 ≤ k :=
  duplicate_count_characterisation [hpvA, hpvB] hpvB (by decide)

/-! ### Key-distinctness is preserved by the fuzzy pass -/

theorem splitCluster_sep (anchor : Paper) :
    ∀ ps : List Paper,
      ps.Pairwise (fun p q => titleKey p ≠ titleKey q) →
      (∀ x ∈ ps, titleKey anchor ≠ titleKey x) →
      ((splitCluster anchor ps).2).Pairwise (fun p q => titleKey p ≠ titleKey q)
      ∧ ∀ c, (c = anchor ∨ c ∈ (splitCluster anchor ps).1) →
          ∀ c' ∈ (splitCluster anchor ps).2, titleKey c ≠ titleKey c' := by
  intro ps
  induction ps with
  | nil =>
      intro _ _
      exact ⟨List.Pairwise.nil, fun c _ c' hc' => absurd hc' (List.not_mem_nil c')⟩
  | cons x xs ih =>
      intro hpw hanch
      obtain ⟨hx, hxs⟩ := List.pairwise_cons.mp hpw
      have hanch' : ∀ y ∈ xs, titleKey anchor ≠ titleKey y :=
        fun y hy => hanch y (List.mem_cons_of_mem _ hy)
      obtain ⟨ih1, ih2⟩ := ih hxs hanch'
      rw [splitCluster_eq]
      by_cases hsim : isSimilar anchor.title x.title
      · rw [if_pos hsim]
        refine ⟨ih1, ?_⟩
        intro c hc c' hc'
        rcases hc with rfl | hc
        · exact ih2 c (Or.inl rfl) c' hc'
        · rcases List.mem_cons.mp hc with rfl | hc
          · exact hx c' (splitCluster_snd_subset anchor xs c' hc')
          · exact ih2 c (Or.inr hc) c' hc'
      · rw [if_neg hsim]
        constructor
        · refine List.pairwise_cons.mpr ⟨?_, ih1⟩
          intro c' hc'
          exact hx c' (splitCluster_snd_subset anchor xs c' hc')
        · intro c hc c' hc'
          rcases List.mem_cons.mp hc' with rfl | hc'
          · rcases hc with rfl | hc
            · exact hanch c' (List.mem_cons_self _ _)
            · exact (hx c (splitCluster_fst_subset anchor xs c hc)).symm
          · rcases hc with rfl | hc
            · exact ih2 c (Or.inl rfl) c' hc'
            · exact ih2 c (Or.inr hc) c' hc'

theorem detect_fuzzy_fuel_keys :
    ∀ (fuel : Nat) (l : List Paper),
      l.Pairwise (fun p q => titleKey p ≠ titleKey q) →
      (detect_fuzzy_fuel fuel l).Pairwise (fun p q => titleKey p ≠ titleKey q) := by
  intro fuel
  induction fuel with
  | zero => intro l _; exact List.Pairwise.nil
  | succ fuel ih =>
      intro l h
      cases l with
      | nil => exact List.Pairwise.nil
      | cons p ps =>
          obtain ⟨hp, hps⟩ := List.pairwise_cons.mp h
          obtain ⟨hsep1, hsep2⟩ := splitCluster_sep p ps hps hp
          rw [detect_fuzzy_fuel_cons]
          refine List.pairwise_cons.mpr ⟨?_, ih _ hsep1⟩
          intro r hr
          have hr' : ∃ c' ∈ (splitCluster p ps).2, r.title = c'.title := by
            rcases detect_fuzzy_fuel_mem fuel _ r hr with h' | ⟨p', hp', ht, -⟩
            · exact ⟨r, h', rfl⟩
            · exact ⟨p', hp', ht⟩
          obtain ⟨c', hc', htit⟩ := hr'
          by_cases hds : (splitCluster p ps).1 = []
          · rw [if_pos hds]
            rw [titleKey_congr htit]
            exact hsep2 p (Or.inl rfl) c' hc'
          · rw [if_neg hds]
            rw [titleKey_congr htit]
            rcases maxByScore_mem (splitCluster p ps).1 p with hb | hb
            · rw [titleKey_congr ((mergeCluster_title p _).trans (by rw [hb]))]
              exact hsep2 p (Or.inl rfl) c' hc'
            · rw [titleKey_congr (mergeCluster_title p _)]
              exact hsep2 _ (Or.inr hb) c' hc'

theorem detect_duplicates_keys (l : List Paper) :
    (detect_duplicates l).Pairwise (fun p q => titleKey p ≠ titleKey q) :=
  detect_fuzzy_fuel_keys _ _ (pass1_keys_pairwise l)

/-! ### The fuzzy pass is the identity on dissimilar lists -/

theorem splitCluster_of_none (anchor : Paper) :
    ∀ ps : List Paper, (∀ x ∈ ps, isSimilar anchor.title x.title = false) →
      splitCluster anchor ps = ([], ps) := by
  intro ps
  induction ps with
  | nil => intro _; rfl
  | cons x xs ih =>
      intro h
      rw [splitCluster_eq, if_neg (by simp [h x (List.mem_cons_self _ _)]),
        ih (fun y hy => h y (List.mem_cons_of_mem _ hy))]

theorem detect_fuzzy_fuel_id :
    ∀ (fuel : Nat) (l : List Paper), l.length ≤ fuel →
      l.Pairwise (fun p q => isSimilar p.title q.title = false) →
      detect_fuzzy_fuel fuel l = l := by
  intro fuel
  induction fuel with
  | zero =>
      intro l hl _
      cases l with
      | nil => rfl
      | cons p ps => simp at hl
  | succ fuel ih =>
      intro l hl h
      cases l with
      | nil => rfl
      | cons p ps =>
          obtain ⟨hp, hps⟩ := List.pairwise_cons.mp h
          rw [detect_fuzzy_fuel_cons, splitCluster_of_none p ps hp]
          simp only [List.length_cons] at hl
          rw [ih ps (by omega) hps]
          simp

/-- C3 (amended): a second resolver run performs no merges provided no two
distinct records of the first run's output have title similarity strictly
above 0.85; `resolver_not_idempotent` shows this proviso is necessary. -/
theorem resolver_idempotent_of_dissimilar (l : List Paper)
    (h : (detect_duplicates l).Pairwise
      (fun p q => ¬ calculate_similarity p.title q.title > 0.85)) :
    detect_duplicates (detect_duplicates l) = detect_duplicates l := by
  have hkeys := detect_duplicates_keys l
  have hsim : (detect_duplicates l).Pairwise
      (fun p q => isSimilar p.title q.title = false) := by
    refine h.imp fun {p q} hpq => ?_
    rcases Bool.eq_false_or_eq_true (isSimilar p.title q.title) with hb | hb
    · exact absurd ((isSimilar_iff_ratio _ _).mp hb) hpq
    · exact hb
  show detect_fuzzy (pass1 (detect_duplicates l)) = detect_duplicates l
  rw [pass1_id _ hkeys]
  exact detect_fuzzy_fuel_id _ _ le_rfl hsim

theorem resolver_idempotent_witness :
    detect_duplicates (detect_duplicates [emptyT1, recB])
      = detect_duplicates [emptyT1, recB] := by
  apply resolver_idempotent_of_dissimilar
  have he : detect_duplicates [emptyT1, recB] = [emptyT1, recB] := by decide
  rw [he]
  refine List.pairwise_cons.mpr ⟨?_, ?_⟩
  · intro q hq
    rw [List.mem_singleton] at hq
    subst hq
    rw [← isSimilar_iff_ratio]
    decide
  · simp

/-- C4: Pass-2 clustering is anchor-only — with three records `A`, `B`, `C`
in scan order, pairwise-distinct normalised titles, `A` similar to `B`, `B`
similar to `C`, but `A` not similar to `C`, the resolver produces exactly
one merged cluster `{A, B}` (its winner keeps the title of `A` or `B` and
gets `duplicate_count = 2`) and passes `C` through as its own singleton
cluster, even though `B` and `C` are similar. -/
theorem anchor_only_clustering (A B C : Paper)
    (hk1 : titleKey A ≠ titleKey B) (hk2 : titleKey A ≠ titleKey C)
    (hk3 : titleKey B ≠ titleKey C)
    (hAB : calculate_similarity A.title B.title > 0.85)
    (hBC : calculate_similarity B.title C.title > 0.85)
    (hAC : ¬ calculate_similarity A.title C.title > 0.85) :
    ∃ w, detect_duplicates [A, B, C] = [w, C]
      ∧ w.duplicate_count = some 2
      ∧ (w.title = A.title ∨ w.title = B.title) := by
  have hAB' : isSimilar A.title B.title = true := (isSimilar_iff_ratio _ _).mpr hAB
  have hAC' : isSimilar A.title C.title = false := by
    rcases Bool.eq_false_or_eq_true (isSimilar A.title C.title) with hb | hb
    · exact absurd ((isSimilar_iff_ratio _ _).mp hb) hAC
    · exact hb
  have hpw : ([A, B, C] : List Paper).Pairwise (fun p q => titleKey p ≠ titleKey q) := by
    refine List.pairwise_cons.mpr ⟨?_, List.pairwise_cons.mpr ⟨?_, ?_⟩⟩
    · intro q hq
      rcases List.mem_cons.mp hq with rfl | hq
      · exact hk1
      · rw [List.mem_singleton] at hq
        subst hq
        exact hk2
    · intro q hq
      rw [List.mem_singleton] at hq
      subst hq
      exact hk3
    · simp
  have h1 : splitCluster A [C] = ([], [C]) := by
    rw [splitCluster_eq, if_neg (by simp [hAC'])]
    rfl
  have h2 : splitCluster A [B, C] = ([B], [C]) := by
    rw [splitCluster_eq, if_pos hAB', h1]
  refine ⟨mergeCluster A [B], ?_, rfl, ?_⟩
  · show detect_fuzzy (pass1 [A, B, C]) = _
    rw [pass1_id _ hpw]
    have e1 : detect_fuzzy [A, B, C]
        = (if (splitCluster A [B, C]).1 = [] then A
            else mergeCluster A (splitCluster A [B, C]).1)
          :: detect_fuzzy_fuel 2 (splitCluster A [B, C]).2 := rfl
    rw [e1, h2]
    rw [if_neg (by simp)]
    have e2 : detect_fuzzy_fuel 2 [C] = [C] := rfl
    rw [e2]
  · rw [mergeCluster_title]
    have hmax : maxByScore A [B]
        = if A.relevance_score < B.relevance_score then B else A := rfl
    rw [hmax]
    by_cases hs : A.relevance_score < B.relevance_score
    · rw [if_pos hs]
      exact Or.inr rfl
    · rw [if_neg hs]
      exact Or.inl rfl

theorem anchor_only_clustering_witness :
    ∃ w, detect_duplicates [recA, recB, recC] = [w, recC]
      ∧ w.duplicate_count = some 2
      ∧ (w.title = recA.title ∨ w.title = recB.title) := by
  refine anchor_only_clustering recA recB recC (by decide) (by decide) (by decide) ?_ ?_ ?_
  · exact (isSimilar_iff_ratio _ _).mp (by decide)
  · exact (isSimilar_iff_ratio _ _).mp (by decide)
  · rw [← isSimilar_iff_ratio]
    decide

/-! ### The final sort is descending and stable -/

theorem insertDesc_eq (r x : Paper) (xs : List Paper) :
    insertDesc r (x :: xs)
      = if x.relevance_score ≤ r.relevance_score then r :: x :: xs
        else x :: insertDesc r xs := rfl

theorem insertDesc_mem (r : Paper) :
    ∀ (m : List Paper) (y : Paper), y ∈ insertDesc r m ↔ y = r ∨ y ∈ m := by
  intro m
  induction m with
  | nil => intro y; simp [insertDesc]
  | cons x xs ih =>
      intro y
      rw [insertDesc_eq]
      by_cases h : x.relevance_score ≤ r.relevance_score
      · rw [if_pos h]
        simp
      · rw [if_neg h]
        simp only [List.mem_cons, ih y]
        tauto

theorem insertDesc_sorted (r : Paper) :
    ∀ m : List Paper, m.Pairwise (fun a b => b.relevance_score ≤ a.relevance_score) →
      (insertDesc r m).Pairwise (fun a b => b.relevance_score ≤ a.relevance_score) := by
  intro m
  induction m with
  | nil => intro _; simp [insertDesc]
  | cons x xs ih =>
      intro h
      obtain ⟨hx, hxs⟩ := List.pairwise_cons.mp h
      rw [insertDesc_eq]
      by_cases hle : x.relevance_score ≤ r.relevance_score
      · rw [if_pos hle]
        refine List.pairwise_cons.mpr ⟨?_, h⟩
        intro y hy
        rcases List.mem_cons.mp hy with rfl | hy
        · exact hle
        · exact le_trans (hx y hy) hle
      · rw [if_neg hle]
        refine List.pairwise_cons.mpr ⟨?_, ih hxs⟩
        intro y hy
        rcases (insertDesc_mem r xs y).mp hy with rfl | hy
        · omega
        · exact hx y hy

theorem sortDesc_cons (x : Paper) (l : List Paper) :
    sortDesc (x :: l) = insertDesc x (sortDesc l) := rfl

theorem sortDesc_sorted :
    ∀ l : List Paper,
      (sortDesc l).Pairwise (fun a b => b.relevance_score ≤ a.relevance_score) := by
  intro l
  induction l with
  | nil => exact List.Pairwise.nil
  | cons x l ih =>
      rw [sortDesc_cons]
      exact insertDesc_sorted x _ ih

theorem insertDesc_filter (s : Nat) (r : Paper) :
    ∀ m : List Paper,
      (insertDesc r m).filter (fun x => x.relevance_score == s)
        = if r.relevance_score = s
          then r :: m.filter (fun x => x.relevance_score == s)
          else m.filter (fun x => x.relevance_score == s) := by
  intro m
  induction m with
  | nil =>
      by_cases h : r.relevance_score = s
      · simp [insertDesc, List.filter_cons, h]
      · simp [insertDesc, List.filter_cons, h]
  | cons x xs ih =>
      rw [insertDesc_eq]
      by_cases hle : x.relevance_score ≤ r.relevance_score
      · rw [if_pos hle]
        by_cases h : r.relevance_score = s
        · rw [if_pos h, List.filter_cons]
          simp [h]
        · rw [if_neg h, List.filter_cons]
          simp [h]
      · rw [if_neg hle]
        by_cases hx : x.relevance_score = s
        · by_cases h : r.relevance_score = s
          · exact absurd (by omega : x.relevance_score ≤ r.relevance_score) hle
          · rw [if_neg h, List.filter_cons, List.filter_cons]
            simp [hx, ih, h]
        · by_cases h : r.relevance_score = s
          · rw [if_pos h, List.filter_cons, List.filter_cons]
            simp [hx, ih, h]
          · rw [if_neg h, List.filter_cons, List.filter_cons]
            simp [hx, ih, h]

theorem sortDesc_filter (s : Nat) :
    ∀ l : List Paper,
      (sortDesc l).filter (fun x => x.relevance_score == s)
        = l.filter (fun x => x.relevance_score == s) := by
  intro l
  induction l with
  | nil => rfl
  | cons x l ih =>
      rw [sortDesc_cons, insertDesc_filter, List.filter_cons]
      by_cases h : x.relevance_score = s
      · rw [if_pos h]
        simp [h, ih]
      · rw [if_neg h]
        simp [h, ih]

/-- C5: the pipeline's final output is sorted by `relevance_score`
descending, and the sort is stable: for every score value, the subsequence
of output records with that score equals, in order, the corresponding
subsequence of the duplicate resolver's output. -/
theorem pipeline_sorted_and_stable (gathered : List Paper) :
    (search_all_sources gathered).Pairwise
      (fun a b => b.relevance_score ≤ a.relevance_score)
    ∧ ∀ s : Nat,
        (search_all_sources gathered).filter (fun r => r.relevance_score == s)
          = (detect_duplicates gathered).filter (fun r => r.relevance_score == s) :=
  ⟨sortDesc_sorted _, fun s => sortDesc_filter s _⟩
